import Mathlib

/-!
# Verification of the HDBSCAN cluster-tree extraction and result assembly

Shallow embedding of the algorithmic core of `cluster_documents.py`,
`cluster_documents_by_chunks.py` (backend scripts) over lists, finite sets
and exact rational arithmetic.

Conventions of the embedding:
* `NodeId` is a natural number; values `< N` are points, values `>= N` are
  internal cluster nodes (`num_points` in the source).
* Python dictionaries built by the indexing loop of `extract_tree_structure`
  are represented by their extensional content (last write wins for
  `parent_map`, running maximum for `lambda_map`, insertion order preserved
  for `all_children_map` and `all_cluster_nodes`).
* Python's bounded call stack is modelled by an explicit `fuel` argument on
  the recursive procedures `collect_points` and `build_node`; a `none`
  result models the `RecursionError` that unbounded recursion raises on the
  CPython stack, which the `try/except` wrapper of `extract_tree_structure`
  turns into the degraded result.
* Floats (`lambda_val`, ratios, thresholds) are modelled by exact rationals;
  embedding vectors are modelled over the reals.
-/

namespace TldrawBerkdoc

/-- One row of the condensed-tree array: `(parent, child, lambda_val, child_size)`. -/
structure TreeEdge where
  parent : Nat
  child : Nat
  lambdaVal : ℚ
  childSize : Nat
deriving DecidableEq, Repr

/-- Sequencing of a fallible computation over a list, mirroring a Python loop
or comprehension in which an exception at any element aborts the whole
computation. -/
def mapOpt (f : α → Option β) : List α → Option (List β)
  | [] => some []
  | a :: as =>
    match f a, mapOpt f as with
    | some b, some bs => some (b :: bs)
    | _, _ => none

/-- Python `dict` lookup on an association list (`d.get(k)`). -/
def lookup_nat (l : List (Nat × α)) (k : Nat) : Option α :=
  match l with
  | [] => none
  | (k0, v) :: rest => if k = k0 then some v else lookup_nat rest k

/-- The map `all_children_map`: multi-map from parent to the children of ALL edges,
in edge order (the `all_children_map[parent].append(child)` loop). -/
def all_children_map (edges : List TreeEdge) (p : Nat) : List Nat :=
  (edges.filter (fun e => e.parent = p)).map (fun e => e.child)

/-- The map `parent_map`: each `parent_map[child] = parent` assignment overwrites, so
the last edge with a given child wins. -/
def parent_map (edges : List TreeEdge) (c : Nat) : Option Nat :=
  ((edges.filter (fun e => e.child = c)).map (fun e => e.parent)).getLast?

/-- The map `lambda_map`: running maximum of `lambda_val` over the edges in which the
node is the child. -/
def lambda_map (edges : List TreeEdge) (c : Nat) : Option ℚ :=
  ((edges.filter (fun e => e.child = c)).map (fun e => e.lambdaVal)).max?

/-- Helper for `all_cluster_nodes`: add a node id to the accumulator when it
is an internal node (`>= num_points`) not seen before (Python `set.add`,
with first-insertion iteration order). -/
def add_cluster_node (N : Nat) (acc : List Nat) (x : Nat) : List Nat :=
  if N ≤ x ∧ x ∉ acc then acc ++ [x] else acc

/-- `all_cluster_nodes`: every node id `>= num_points` occurring in any edge,
parent checked before child, per edge, in edge order. -/
def all_cluster_nodes (N : Nat) (edges : List TreeEdge) : List Nat :=
  edges.foldl (fun acc e => add_cluster_node N (add_cluster_node N acc e.parent) e.child) []

/-- The list `cluster_tree`: the cluster-to-cluster edges (`child_size > 1`). -/
def cluster_tree (edges : List TreeEdge) : List TreeEdge :=
  edges.filter (fun e => 1 < e.childSize)

/-- The map `children_map`: children map restricted to the cluster-only subgraph.
The source stores records `(cluster_id, lambda_val, size)` per child of which
only `cluster_id` is ever read (in `build_node`); the embedding keeps the
`cluster_id` projection. -/
def children_map (edges : List TreeEdge) (p : Nat) : List Nat :=
  ((cluster_tree edges).filter (fun e => e.parent = p)).map (fun e => e.child)

/-- Python sets are modelled as duplicate-free lists in insertion order:
`set_insert` is `s.add(x)`. -/
def set_insert [DecidableEq α] (acc : List α) (x : α) : List α :=
  if x ∈ acc then acc else acc ++ [x]

/-- Python `s.update(t)`: set union, keeping insertion order. -/
def set_union [DecidableEq α] (a b : List α) : List α :=
  b.foldl set_insert a

/-- The procedure `collect_points`: recursive collection of the reachable point set of a
node through the full children map.  The source recurses natively on the
CPython stack; `fuel` bounds the recursion depth and `none` models stack
exhaustion (`RecursionError`). -/
def collect_points (N : Nat) (edges : List TreeEdge) : Nat → Nat → Option (List Nat)
  | 0, _ => none
  | fuel + 1, cid =>
    if cid < N then some [cid]
    else
      match mapOpt (fun c => collect_points N edges fuel c) (all_children_map edges cid) with
      | none => none
      | some sets => some (sets.foldl set_union [])

/-- The set of final-cluster labels (excluding the noise label `-1`) of the
points of `pts` that lie inside the label array. -/
def node_final_clusters (labels : List Int) (pts : List Nat) : List Int :=
  ((pts.filter (fun p => p < labels.length ∧ labels.getD p (-1) ≠ -1)).map
    (fun p => labels.getD p (-1))).foldl set_insert []

/-- The `for cluster_id in all_cluster_nodes` loop body filling
`tree_to_final_clusters`: each node's points are collected and, when the
point set and its non-noise label set are both non-empty, the node is mapped
to its sorted label list.  `none` models a `RecursionError` escaping from
`collect_points`. -/
def tree_to_final_clusters_loop (N fuel : Nat) (edges : List TreeEdge) (labels : List Int) :
    List Nat → Option (List (Nat × List Int))
  | [] => some []
  | c :: cs =>
    (collect_points N edges fuel c).bind (fun pts =>
      (tree_to_final_clusters_loop N fuel edges labels cs).bind (fun rest =>
        if pts = [] then some rest
        else
          if node_final_clusters labels pts = [] then some rest
          else some ((c, (node_final_clusters labels pts).insertionSort (· ≤ ·)) :: rest)))

/-- The map `tree_to_final_clusters`: for every internal node, its sorted reachable
final-cluster list; nodes reaching no points or only noise are dropped. -/
def tree_to_final_clusters (N fuel : Nat) (edges : List TreeEdge) (labels : List Int) :
    Option (List (Nat × List Int)) :=
  tree_to_final_clusters_loop N fuel edges labels (all_cluster_nodes N edges)

/-- The list `root_candidates`: internal nodes with no parent in the full parent map,
or whose recorded parent is a point (`parent_map.get(c, -1) < num_points`). -/
def root_candidates (N : Nat) (edges : List TreeEdge) : List Nat :=
  (all_cluster_nodes N edges).filter (fun c =>
    match parent_map edges c with
    | none => true
    | some p => p < N)

/-- One comparison step of Python `max(..., key=...)`: keep the current best
unless the candidate's key is strictly greater (first maximal element wins
ties). -/
def pick_max (edges : List TreeEdge) (b c : Nat) : Nat :=
  if (lambda_map edges b).getD 0 < (lambda_map edges c).getD 0 then c else b

/-- Python `max(nodes, key=lambda x: lambda_map.get(x, 0))`. -/
def max_by_lambda (edges : List TreeEdge) : List Nat → Option Nat
  | [] => none
  | x :: xs => some (xs.foldl (pick_max edges) x)

/-- Root selection including the fallback: when no root candidate exists but
internal nodes do, the node maximising the recorded merge level is the root. -/
def roots_selected (N : Nat) (edges : List TreeEdge) : List Nat :=
  if root_candidates N edges = [] ∧ all_cluster_nodes N edges ≠ [] then
    match max_by_lambda edges (all_cluster_nodes N edges) with
    | some m => [m]
    | none => []
  else root_candidates N edges

/-- One node of the Output Tree (`build_node`'s returned dictionary). -/
structure OutputNode where
  cluster_id : Nat
  lambda_val : ℚ
  final_clusters : List Int
  exclusive_clusters : List Int
  children : List OutputNode

/-- Union of the `final_clusters` fields of a list of child nodes, as built
by the `child_final_clusters.update(...)` loop. -/
def child_union (childNodes : List OutputNode) : List Int :=
  childNodes.foldl (fun s c => set_union s c.final_clusters) []

/-- The procedure `build_node`: recursive bottom-up construction of an Output Tree node
from the cluster-only children map.  `fuel` models the call stack as for
`collect_points`. -/
def build_node (edges : List TreeEdge) (mapping : List (Nat × List Int)) :
    Nat → Nat → Option OutputNode
  | 0, _ => none
  | fuel + 1, cid =>
    match mapOpt (fun c => build_node edges mapping fuel c) (children_map edges cid) with
    | none => none
    | some childNodes =>
      let allFC : List Int := (lookup_nat mapping cid).getD []
      some
        { cluster_id := cid
          lambda_val := (lambda_map edges cid).getD 0
          final_clusters := allFC.insertionSort (· ≤ ·)
          exclusive_clusters :=
            (allFC.filter (fun x => x ∉ child_union childNodes)).insertionSort (· ≤ ·)
          children := childNodes }

/-- The dictionary returned by `extract_tree_structure`.  `total_edges := none`
models the key being absent (early empty return and degraded return);
`error := some msg` models the `'error'` key of the degraded return. -/
structure TreeResult where
  tree : List OutputNode
  edges : List TreeEdge
  total_edges : Option Nat
  cluster_mapping : List (Nat × List Int)
  error : Option String

/-- The body of `extract_tree_structure` inside the `try`: `none` models an
exception escaping to the `except` clause. -/
def extract_inner (N fuel : Nat) (edges : List TreeEdge) (labels : List Int) :
    Option TreeResult :=
  if cluster_tree edges = [] then
    some { tree := [], edges := [], total_edges := none, cluster_mapping := [], error := none }
  else
    match tree_to_final_clusters N fuel edges labels with
    | none => none
    | some mapping =>
      match mapOpt (fun r => build_node edges mapping fuel r) (roots_selected N edges) with
      | none => none
      | some tree =>
        some
          { tree := tree
            edges := (cluster_tree edges).take 500
            total_edges := some (cluster_tree edges).length
            cluster_mapping := mapping
            error := none }

/-- The function `extract_tree_structure`: the `try/except` wrapper converting any
exception into the degraded result with empty tree and empty mapping. -/
def extract_tree_structure (N fuel : Nat) (edges : List TreeEdge) (labels : List Int) :
    TreeResult :=
  match extract_inner N fuel edges labels with
  | some r => r
  | none =>
    { tree := [], edges := [], total_edges := none, cluster_mapping := [],
      error := some "Could not extract tree structure" }

/-! ## Chunk-first variant (`cluster_documents_by_chunks.py`) -/

/-- The per-document record computed by `map_chunk_clusters_to_documents`.
Presentational metadata (`title`, `source`, `chunk_cluster_distribution`) is
omitted; the name `primary_cluster_frac` renders the source's primary-cluster
fraction field. -/
structure DocAssign where
  cluster_id : Int
  chunk_count : Nat
  primary_cluster : Int
  primary_cluster_frac : ℚ
deriving DecidableEq, Repr

/-- The map `cluster_counts`: chunk count per cluster label, in first-occurrence
order (Python `defaultdict(int)` preserves insertion order). -/
def cluster_counts (chunk_clusters : List Int) : List (Int × Nat) :=
  chunk_clusters.foldl (fun acc c =>
    if acc.any (fun p => p.1 = c) then
      acc.map (fun p => if p.1 = c then (p.1, p.2 + 1) else p)
    else acc ++ [(c, 1)]) []

/-- Python `max(counts.items(), key=lambda x: x[1])`: the first maximal entry
in iteration order wins ties. -/
def max_by_count : List (Int × Nat) → Option (Int × Nat)
  | [] => none
  | x :: xs => some (xs.foldl (fun b p => if b.2 < p.2 then p else b) x)

/-- The per-document body of the `map_chunk_clusters_to_documents` loop:
primary cluster, its chunk fraction, and the threshold-gated assignment
(`assigned_cluster = primary` exactly when `primary_ratio >= threshold`,
else `-1`; with no chunks the primary is `-1` with ratio `0`, and the
assignment is `-1` in both branches of the source's threshold test). -/
def assign_document (threshold : ℚ) (chunk_clusters : List Int) : DocAssign :=
  if cluster_counts chunk_clusters = [] then
    { cluster_id := -1
      chunk_count := chunk_clusters.length
      primary_cluster := -1
      primary_cluster_frac := 0 }
  else
    { cluster_id :=
        if threshold ≤ (((max_by_count (cluster_counts chunk_clusters)).getD (-1, 0)).2 : ℚ) /
            (chunk_clusters.length : ℚ) then
          ((max_by_count (cluster_counts chunk_clusters)).getD (-1, 0)).1
        else -1
      chunk_count := chunk_clusters.length
      primary_cluster := ((max_by_count (cluster_counts chunk_clusters)).getD (-1, 0)).1
      primary_cluster_frac :=
        (((max_by_count (cluster_counts chunk_clusters)).getD (-1, 0)).2 : ℚ) /
          (chunk_clusters.length : ℚ) }

/-- The output of the chunk-variant `format_results`, projected to the fields
the grouping invariants are about (per-group document-id lists; the JSON
`size`/`count` fields are the lengths of these lists). -/
structure ChunkResult where
  totalDocuments : Nat
  totalClusters : Nat
  noiseCount : Nat
  multiClusterCount : Nat
  clusters : List (Int × List String)
  noise : List String
  multiCluster : List String

/-- Python `clusters[cluster_id].append(doc)`: append to the existing group (dict
keys are unique, so the first match is the entry) or open a new group at the
end (Python `defaultdict(list)` insertion order). -/
def add_to_cluster : List (Int × List String) → Int → String → List (Int × List String)
  | [], cid, d => [(cid, [d])]
  | p :: ps, cid, d =>
    if p.1 = cid then (p.1, p.2 ++ [d]) :: ps else p :: add_to_cluster ps cid d

/-- One iteration of the grouping loop of the chunk-variant `format_results`:
noise when the assigned cluster is `-1` and the primary cluster is `-1`,
multi-cluster when assigned `-1` with a real primary cluster, otherwise the
assigned cluster's group. -/
def classify_step (acc : List (Int × List String) × List String × List String)
    (x : String × DocAssign) : List (Int × List String) × List String × List String :=
  if x.2.cluster_id = -1 then
    if x.2.primary_cluster = -1 then (acc.1, acc.2.1 ++ [x.1], acc.2.2)
    else (acc.1, acc.2.1, acc.2.2 ++ [x.1])
  else (add_to_cluster acc.1 x.2.cluster_id x.1, acc.2.1, acc.2.2)

/-- The total of the per-cluster `size` fields of the grouped output. -/
def cluster_sizes_sum (cs : List (Int × List String)) : Nat :=
  (cs.map (fun p => p.2.length)).sum

/-- The chunk-variant `format_results`, on the document→assignment map
(association list in dict order). -/
def format_results (doc_clusters : List (String × DocAssign)) : ChunkResult :=
  let g := doc_clusters.foldl classify_step ([], [], [])
  { totalDocuments := doc_clusters.length
    totalClusters := g.1.length
    noiseCount := g.2.1.length
    multiClusterCount := g.2.2.length
    clusters := g.1
    noise := g.2.1
    multiCluster := g.2.2 }

/-- The chunk-first pipeline from per-document chunk-label lists to the
grouped result (`map_chunk_clusters_to_documents` then `format_results`). -/
def chunk_pipeline (threshold : ℚ) (docs : List (String × List Int)) : ChunkResult :=
  format_results (docs.map (fun x => (x.1, assign_document threshold x.2)))

/-! ## Embedding aggregation (`aggregate_embeddings`) -/

/-- Numpy `np.mean(vectors, axis=0)`: element-wise arithmetic mean of a list of
`dim`-dimensional vectors. -/
noncomputable def mean_vector (vectors : List (List ℝ)) (dim : Nat) : List ℝ :=
  (List.range dim).map (fun i => (vectors.map (fun v => v.getD i 0)).sum / vectors.length)

/-- Numpy `np.linalg.norm`: the Euclidean norm of a vector. -/
noncomputable def l2_norm (v : List ℝ) : ℝ :=
  Real.sqrt (v.map (fun x => x ^ 2)).sum

/-- The per-document body of `aggregate_embeddings`: mean pooling, then L2
normalisation guarded by `norm > 0` (a zero-norm mean is returned as is). -/
noncomputable def aggregate_embeddings (vectors : List (List ℝ)) (dim : Nat) : List ℝ :=
  if 0 < l2_norm (mean_vector vectors dim) then
    (mean_vector vectors dim).map (fun x => x / l2_norm (mean_vector vectors dim))
  else mean_vector vectors dim

/-! ## Definitions supporting the individual claims -/

/-- The parent of a node within the cluster-only subgraph: the relation the
spec's Step E root-candidate rule refers to. -/
def cluster_only_parent (edges : List TreeEdge) (c : Nat) : Option Nat :=
  parent_map (cluster_tree edges) c

/-- Modelled from the spec (Step E wording): a node is a root candidate if it
has no parent in the cluster-only subgraph, or its parent per the full map is
a point.  Stated for comparison with the implementation's `root_candidates`. -/
def spec_root_candidate (N : Nat) (edges : List TreeEdge) (c : Nat) : Prop :=
  cluster_only_parent edges c = none ∨ ∃ p, parent_map edges c = some p ∧ p < N

/-- The set of non-noise final-cluster labels present in the label array. -/
def labels_present (labels : List Int) : Finset Int :=
  (labels.filter (fun x => x ≠ -1)).toFinset

/-- The union, over the roots of an extraction result's output tree, of the
roots' reachable final-cluster sets. -/
def roots_final_union (r : TreeResult) : Finset Int :=
  r.tree.foldl (fun s n => s ∪ n.final_clusters.toFinset) ∅

/-- A parent-chain condensed tree: cluster nodes `1, 2, ..., d + 1` in a
single descending chain of cluster-merge edges, with the single point `0`
(`N = 1`) attached below the last one.  Collecting the points of the top
node `1` needs recursion depth `d + 2`. -/
def chain_edges (d : Nat) : List TreeEdge :=
  (List.range d).map (fun i => ⟨1 + i, 2 + i, 1, 2⟩) ++ [⟨1 + d, 0, 1, 1⟩]

/-- The condensed tree of the basic worked example: one cluster-merge edge
`3 → 2` and two point attachments `2 → 0`, `2 → 1`, with two points both in
final cluster `0`. -/
def w1Edges : List TreeEdge := [⟨3, 2, 3/2, 2⟩, ⟨2, 0, 2, 1⟩, ⟨2, 1, 2, 1⟩]

def w1Labels : List Int := [0, 0]

def w1Node : OutputNode :=
  { cluster_id := 3, lambda_val := 0, final_clusters := [0], exclusive_clusters := [],
    children := [{ cluster_id := 2, lambda_val := 3/2, final_clusters := [0],
                   exclusive_clusters := [0], children := [] }] }

/-- A condensed tree in which internal node `2` has a full-map parent `3`
recorded by a `child_size = 1` edge only, so it has no parent in the
cluster-only subgraph. -/
def w2Edges : List TreeEdge := [⟨4, 5, 1, 2⟩, ⟨3, 2, 1, 1⟩]

/-- A cyclic (malformed) edge list: nodes `4` and `5` are each other's
parents, so point collection recurses forever and the extraction degrades. -/
def wCycEdges : List TreeEdge := [⟨4, 5, 1, 2⟩, ⟨5, 4, 2, 2⟩]

/-- Two cluster-merge edges attaching points `0` and `1` to node `2`. -/
def w8Edges : List TreeEdge := [⟨2, 0, 1, 2⟩, ⟨2, 1, 1, 2⟩]

/-- A condensed tree whose only cluster-merge component reaches point `0`;
point `1` carries final label `1` but is attached to no edge at all. -/
def w3Edges : List TreeEdge := [⟨2, 0, 1, 2⟩]

def w3Labels : List Int := [0, 1]

/-! ## Basic lemmas about the embedding combinators -/

theorem mapOpt_nil_iff {α β : Type _} {f : α → Option β} {ys : List β} :
    mapOpt f [] = some ys ↔ ys = [] := by
  constructor
  · intro h
    simp only [mapOpt] at h
    exact (Option.some_inj.mp h).symm
  · intro h
    subst h
    rfl

theorem mapOpt_cons_iff {α β : Type _} {f : α → Option β} {a : α} {as : List α} {ys : List β} :
    mapOpt f (a :: as) = some ys ↔
      ∃ b bs, f a = some b ∧ mapOpt f as = some bs ∧ ys = b :: bs := by
  constructor
  · intro h
    simp only [mapOpt] at h
    cases hfa : f a with
    | none => rw [hfa] at h; cases h
    | some b =>
      cases hrest : mapOpt f as with
      | none => rw [hfa, hrest] at h; cases h
      | some bs =>
        rw [hfa, hrest] at h
        exact ⟨b, bs, rfl, rfl, (Option.some_inj.mp h).symm⟩
  · rintro ⟨b, bs, hfa, hrest, rfl⟩
    simp only [mapOpt, hfa, hrest]

/-- Every element of a successful `mapOpt` result comes from some input
element. -/
theorem mapOpt_mem {α β : Type _} {f : α → Option β} :
    ∀ {l : List α} {ys : List β}, mapOpt f l = some ys → ∀ b ∈ ys, ∃ a ∈ l, f a = some b := by
  intro l
  induction l with
  | nil =>
    intro ys h b hb
    rw [mapOpt_nil_iff.mp h] at hb
    cases hb
  | cons a as ih =>
    intro ys h b hb
    obtain ⟨b0, bs, hfa, hrest, rfl⟩ := mapOpt_cons_iff.mp h
    rcases List.mem_cons.mp hb with hb | hb
    · exact ⟨a, List.mem_cons_self a as, hb ▸ hfa⟩
    · obtain ⟨a0, ha0, hfa0⟩ := ih hrest b hb
      exact ⟨a0, List.mem_cons_of_mem a ha0, hfa0⟩

/-- Every input element of a successful `mapOpt` contributes some element of
the result. -/
theorem mapOpt_mem_of_mem {α β : Type _} {f : α → Option β} :
    ∀ {l : List α} {ys : List β}, mapOpt f l = some ys → ∀ a ∈ l, ∃ b ∈ ys, f a = some b := by
  intro l
  induction l with
  | nil =>
    intro ys _ a ha
    cases ha
  | cons a0 as ih =>
    intro ys h a ha
    obtain ⟨b0, bs, hfa, hrest, rfl⟩ := mapOpt_cons_iff.mp h
    rcases List.mem_cons.mp ha with ha | ha
    · exact ⟨b0, List.mem_cons_self b0 bs, ha ▸ hfa⟩
    · obtain ⟨b, hb, hfb⟩ := ih hrest a ha
      exact ⟨b, List.mem_cons_of_mem b0 hb, hfb⟩

/-! ## C1: exclusive versus reachable final clusters in Output Tree nodes -/

/-- The per-node invariant of an Output Tree node: the exclusive set is the
reachable set minus the union of the children's reachable sets, both lists
sorted ascending; consequently the exclusive list is contained in the
reachable list, with equality for a node with no cluster-only children. -/
def node_ok (n : OutputNode) : Prop :=
  n.exclusive_clusters.toFinset = n.final_clusters.toFinset \ (child_union n.children).toFinset
  ∧ List.Sorted (· ≤ ·) n.final_clusters
  ∧ List.Sorted (· ≤ ·) n.exclusive_clusters
  ∧ n.exclusive_clusters ⊆ n.final_clusters
  ∧ (n.children = [] → n.exclusive_clusters = n.final_clusters)

/-- The invariant `node_ok` holding at a node and, hereditarily, at every descendant. -/
inductive AllOk : OutputNode → Prop
  | intro (n : OutputNode) : node_ok n → (∀ c ∈ n.children, AllOk c) → AllOk n

theorem mem_set_insert [DecidableEq α] (acc : List α) (x a : α) :
    a ∈ set_insert acc x ↔ a ∈ acc ∨ a = x := by
  by_cases h : x ∈ acc
  · simp only [set_insert, if_pos h]
    constructor
    · exact Or.inl
    · rintro (h1 | rfl)
      · exact h1
      · exact h
  · simp [set_insert, if_neg h]

theorem mem_set_union [DecidableEq α] (b a : List α) (x : α) :
    x ∈ set_union a b ↔ x ∈ a ∨ x ∈ b := by
  induction b generalizing a with
  | nil => simp [set_union]
  | cons c cs ih =>
    show x ∈ set_union (set_insert a c) cs ↔ _
    rw [ih (set_insert a c), mem_set_insert]
    simp only [List.mem_cons]
    tauto

/-- Every node built by `build_node` satisfies the invariant hereditarily. -/
theorem build_node_allOk (edges : List TreeEdge) (mapping : List (Nat × List Int)) :
    ∀ fuel cid n, build_node edges mapping fuel cid = some n → AllOk n := by
  intro fuel
  induction fuel with
  | zero =>
    intro cid n h
    cases h
  | succ fuel ih =>
    intro cid n h
    simp only [build_node] at h
    cases hm : mapOpt (fun c => build_node edges mapping fuel c) (children_map edges cid) with
    | none => rw [hm] at h; cases h
    | some childNodes =>
      rw [hm] at h
      injection h with h
      subst h
      refine AllOk.intro _ ⟨?_, ?_, ?_, ?_, ?_⟩ ?_
      · ext a
        simp [List.mem_insertionSort, List.mem_filter]
      · exact List.sorted_insertionSort _ _
      · exact List.sorted_insertionSort _ _
      · intro a ha
        simp only [List.mem_insertionSort, List.mem_filter] at ha ⊢
        exact ha.1
      · intro hchildren
        simp only at hchildren
        subst hchildren
        simp [child_union]
      · intro c hc
        obtain ⟨a, _, hfa⟩ := mapOpt_mem hm c hc
        exact ih a c hfa

/-- Claim C1: in every Output Tree node produced by tree extraction, the exclusive
final-cluster list is the reachable final-cluster list minus the union of the
children's reachable lists (both sorted ascending), hence a subset of it, and
for a node with no cluster-only children the two lists are equal; this holds
hereditarily for all descendants. -/
theorem extract_inner_nodes_ok (N fuel : Nat) (edges : List TreeEdge) (labels : List Int)
    (r : TreeResult) (hinner : extract_inner N fuel edges labels = some r) :
    ∀ n ∈ r.tree, AllOk n := by
  intro n hn
  unfold extract_inner at hinner
  by_cases hct : cluster_tree edges = []
  · rw [if_pos hct] at hinner
    injection hinner with h
    subst h
    cases hn
  · rw [if_neg hct] at hinner
    split at hinner
    · cases hinner
    · split at hinner
      · cases hinner
      · rename_i mapping _ _ tree htree
        injection hinner with h
        subst h
        obtain ⟨root, _, hb⟩ := mapOpt_mem htree n hn
        exact build_node_allOk edges mapping fuel root n hb

theorem extract_tree_structure_eq_of_some {N fuel : Nat} {edges : List TreeEdge}
    {labels : List Int} {r : TreeResult} (h : extract_inner N fuel edges labels = some r) :
    extract_tree_structure N fuel edges labels = r := by
  unfold extract_tree_structure
  rw [h]

theorem extract_tree_structure_eq_of_none {N fuel : Nat} {edges : List TreeEdge}
    {labels : List Int} (h : extract_inner N fuel edges labels = none) :
    extract_tree_structure N fuel edges labels =
      { tree := [], edges := [], total_edges := none, cluster_mapping := [],
        error := some "Could not extract tree structure" } := by
  unfold extract_tree_structure
  rw [h]

theorem extract_tree_nodes_ok (N fuel : Nat) (edges : List TreeEdge) (labels : List Int)
    (n : OutputNode) (hn : n ∈ (extract_tree_structure N fuel edges labels).tree) :
    AllOk n := by
  cases hinner : extract_inner N fuel edges labels with
  | none =>
    rw [extract_tree_structure_eq_of_none hinner] at hn
    cases hn
  | some r =>
    rw [extract_tree_structure_eq_of_some hinner] at hn
    exact extract_inner_nodes_ok N fuel edges labels r hinner n hn

theorem extract_tree_nodes_ok_witness :
    w1Node ∈ (extract_tree_structure 2 5 w1Edges w1Labels).tree ∧ AllOk w1Node := by
  have h : (extract_tree_structure 2 5 w1Edges w1Labels).tree = [w1Node] := rfl
  have hmem : w1Node ∈ (extract_tree_structure 2 5 w1Edges w1Labels).tree := by
    rw [h]
    exact List.mem_singleton_self w1Node
  exact ⟨hmem, extract_tree_nodes_ok 2 5 w1Edges w1Labels w1Node hmem⟩

/-! ## C2: root-candidate selection and the maximum-merge-level fallback -/

theorem foldl_pick_max_mem (edges : List TreeEdge) :
    ∀ (xs : List Nat) (x : Nat), xs.foldl (pick_max edges) x ∈ x :: xs := by
  intro xs
  induction xs with
  | nil => intro x; exact List.mem_singleton_self x
  | cons c cs ih =>
    intro x
    have h := ih (pick_max edges x c)
    rcases List.mem_cons.mp h with h1 | h1
    · rw [List.foldl_cons, h1]
      unfold pick_max
      split
      · exact List.mem_cons_of_mem _ (List.mem_cons_self _ _)
      · exact List.mem_cons_self _ _
    · exact List.mem_cons_of_mem _ (List.mem_cons_of_mem _ h1)

theorem foldl_pick_max_ge (edges : List TreeEdge) :
    ∀ (xs : List Nat) (x : Nat), ∀ y ∈ x :: xs,
      (lambda_map edges y).getD 0 ≤ (lambda_map edges (xs.foldl (pick_max edges) x)).getD 0 := by
  intro xs
  induction xs with
  | nil =>
    intro x y hy
    rcases List.mem_cons.mp hy with h | h
    · subst h; exact le_refl _
    · cases h
  | cons c cs ih =>
    intro x y hy
    have hx : (lambda_map edges x).getD 0 ≤ (lambda_map edges (pick_max edges x c)).getD 0 := by
      unfold pick_max
      split
      · rename_i h; exact le_of_lt h
      · exact le_refl _
    have hc : (lambda_map edges c).getD 0 ≤ (lambda_map edges (pick_max edges x c)).getD 0 := by
      unfold pick_max
      split
      · exact le_refl _
      · rename_i h; exact le_of_not_lt h
    rcases List.mem_cons.mp hy with h | h
    · rw [h]
      exact le_trans hx (ih (pick_max edges x c) _ (List.mem_cons_self _ _))
    · rcases List.mem_cons.mp h with h1 | h1
      · rw [h1]
        exact le_trans hc (ih (pick_max edges x c) _ (List.mem_cons_self _ _))
      · exact ih (pick_max edges x c) y (List.mem_cons_of_mem _ h1)

/-- Claim C2 counterexample: in `w2Edges` with two points, internal node `2` has no
parent in the cluster-only subgraph (its only incoming edge has
`child_size = 1`), so the claim's rule makes it a root candidate, yet the
implementation rejects it because its parent in the FULL parent map is the
internal node `3`. -/
theorem spec_root_candidate_not_selected :
    2 ∈ all_cluster_nodes 2 w2Edges ∧ spec_root_candidate 2 w2Edges 2 ∧
      ¬(2 ∈ root_candidates 2 w2Edges ↔ spec_root_candidate 2 w2Edges 2) :=
  ⟨by decide, Or.inl rfl, fun hiff =>
    (by decide : 2 ∉ root_candidates 2 w2Edges) (hiff.mpr (Or.inl rfl))⟩

/-- Claim C2 amended: an internal node is selected as a root candidate iff it has
no parent in the FULL parent map or its full-map parent is a point; and when
no candidate exists though internal nodes do, the selected root is a single
internal node whose recorded merge level (missing level counted as `0`) is
maximal among all internal nodes. -/
theorem root_candidates_characterisation (N : Nat) (edges : List TreeEdge) (c : Nat) :
    (c ∈ root_candidates N edges ↔
      c ∈ all_cluster_nodes N edges ∧
        (parent_map edges c = none ∨ ∃ p, parent_map edges c = some p ∧ p < N))
    ∧ (root_candidates N edges = [] → all_cluster_nodes N edges ≠ [] →
        ∃ m, roots_selected N edges = [m] ∧ m ∈ all_cluster_nodes N edges ∧
          ∀ x ∈ all_cluster_nodes N edges,
            (lambda_map edges x).getD 0 ≤ (lambda_map edges m).getD 0) := by
  constructor
  · rw [root_candidates, List.mem_filter]
    constructor
    · rintro ⟨hmem, hp⟩
      refine ⟨hmem, ?_⟩
      cases hpm : parent_map edges c with
      | none => exact Or.inl rfl
      | some p =>
        rw [hpm] at hp
        simp only [decide_eq_true_eq] at hp
        exact Or.inr ⟨p, rfl, hp⟩
    · rintro ⟨hmem, hdisj⟩
      refine ⟨hmem, ?_⟩
      rcases hdisj with hnone | ⟨p, hsome, hlt⟩
      · rw [hnone]
      · rw [hsome]
        simpa using hlt
  · intro hrc hacn
    rw [roots_selected, if_pos ⟨hrc, hacn⟩]
    cases hacnl : all_cluster_nodes N edges with
    | nil => exact absurd hacnl hacn
    | cons x xs =>
      exact ⟨xs.foldl (pick_max edges) x, rfl, foldl_pick_max_mem edges xs x,
        fun y hy => foldl_pick_max_ge edges xs x y hy⟩

theorem root_candidates_characterisation_witness :
    (4 ∈ root_candidates 2 wCycEdges ↔
      4 ∈ all_cluster_nodes 2 wCycEdges ∧
        (parent_map wCycEdges 4 = none ∨ ∃ p, parent_map wCycEdges 4 = some p ∧ p < 2))
    ∧ (∃ m, roots_selected 2 wCycEdges = [m] ∧ m ∈ all_cluster_nodes 2 wCycEdges ∧
        ∀ x ∈ all_cluster_nodes 2 wCycEdges,
          (lambda_map wCycEdges x).getD 0 ≤ (lambda_map wCycEdges m).getD 0) :=
  ⟨(root_candidates_characterisation 2 wCycEdges 4).1,
   (root_candidates_characterisation 2 wCycEdges 4).2 (by decide) (by decide)⟩

/-! ## C4: tree extraction never raises -/

theorem extract_inner_error_none {N fuel : Nat} {edges : List TreeEdge} {labels : List Int}
    {r : TreeResult} (hinner : extract_inner N fuel edges labels = some r) :
    r.error = none := by
  unfold extract_inner at hinner
  by_cases hct : cluster_tree edges = []
  · rw [if_pos hct] at hinner
    injection hinner with h
    subst h
    rfl
  · rw [if_neg hct] at hinner
    split at hinner
    · cases hinner
    · split at hinner
      · cases hinner
      · injection hinner with h
        subst h
        rfl

/-- Claim C4: tree extraction is total: for every input, either the result carries
no error, or (when the inner computation fails) the degraded-but-valid result
is returned: empty tree, a human-readable error message and an empty
`cluster_mapping`. -/
theorem extract_never_raises (N fuel : Nat) (edges : List TreeEdge) (labels : List Int) :
    ((extract_tree_structure N fuel edges labels).error = none ∨
      ((extract_tree_structure N fuel edges labels).tree = [] ∧
        (extract_tree_structure N fuel edges labels).cluster_mapping = [] ∧
        ∃ msg, (extract_tree_structure N fuel edges labels).error = some msg))
    ∧ (extract_inner N fuel edges labels = none →
        extract_tree_structure N fuel edges labels =
          { tree := [], edges := [], total_edges := none, cluster_mapping := [],
            error := some "Could not extract tree structure" }) := by
  constructor
  · cases hinner : extract_inner N fuel edges labels with
    | none =>
      rw [extract_tree_structure_eq_of_none hinner]
      exact Or.inr ⟨rfl, rfl, _, rfl⟩
    | some r =>
      rw [extract_tree_structure_eq_of_some hinner]
      exact Or.inl (extract_inner_error_none hinner)
  · intro h
    exact extract_tree_structure_eq_of_none h

theorem extract_never_raises_witness :
    extract_inner 2 3 wCycEdges [] = none ∧
      extract_tree_structure 2 3 wCycEdges [] =
        { tree := [], edges := [], total_edges := none, cluster_mapping := [],
          error := some "Could not extract tree structure" } :=
  ⟨rfl, (extract_never_raises 2 3 wCycEdges []).2 rfl⟩

/-! ## C8: the displayed edge list is capped at 500, the true total reported -/

theorem extract_inner_some_of_error_none {N fuel : Nat} {edges : List TreeEdge}
    {labels : List Int}
    (hsucc : (extract_tree_structure N fuel edges labels).error = none) :
    extract_inner N fuel edges labels = some (extract_tree_structure N fuel edges labels) := by
  cases hinner : extract_inner N fuel edges labels with
  | none =>
    rw [extract_tree_structure_eq_of_none hinner] at hsucc
    cases hsucc
  | some r =>
    rw [extract_tree_structure_eq_of_some hinner]

/-- Claim C8: whenever extraction succeeds on a condensed tree with at least one
cluster-merge edge, the displayed edge list has at most 500 entries while
`total_edges` reports the exact number of cluster-merge edges. -/
theorem edges_capped (N fuel : Nat) (edges : List TreeEdge) (labels : List Int)
    (hsucc : (extract_tree_structure N fuel edges labels).error = none)
    (hct : cluster_tree edges ≠ []) :
    (extract_tree_structure N fuel edges labels).edges.length ≤ 500 ∧
      (extract_tree_structure N fuel edges labels).total_edges =
        some (edges.filter (fun e => 1 < e.childSize)).length := by
  have hinner := extract_inner_some_of_error_none hsucc
  unfold extract_inner at hinner
  rw [if_neg hct] at hinner
  split at hinner
  · cases hinner
  · split at hinner
    · cases hinner
    · injection hinner with h
      rw [← h]
      refine ⟨?_, rfl⟩
      simp

theorem edges_capped_witness :
    (extract_tree_structure 2 5 w8Edges [0, 0]).error = none ∧
      cluster_tree w8Edges ≠ [] ∧
      (extract_tree_structure 2 5 w8Edges [0, 0]).edges.length ≤ 500 ∧
      (extract_tree_structure 2 5 w8Edges [0, 0]).total_edges =
        some (w8Edges.filter (fun e => 1 < e.childSize)).length :=
  ⟨rfl, by decide, edges_capped 2 5 w8Edges [0, 0] rfl (by decide)⟩

/-! ## C9: point collection needs recursion depth linear in tree depth -/

theorem chain_prefix_filter (d j : Nat) :
    (((List.range d).map (fun i => (⟨1 + i, 2 + i, 1, 2⟩ : TreeEdge))).filter
        (fun e => e.parent = 1 + j)) =
      if j < d then [⟨1 + j, 2 + j, 1, 2⟩] else [] := by
  induction d with
  | zero => simp
  | succ d ih =>
    rw [List.range_succ, List.map_append, List.filter_append, ih]
    by_cases h : j < d
    · rw [if_pos h, if_pos (Nat.lt_succ_of_lt h)]
      have hne : ¬(1 + d = 1 + j) := by omega
      simp [hne]
    · rw [if_neg h]
      by_cases h2 : j < d + 1
      · have hj : j = d := by omega
        subst hj
        simp
      · rw [if_neg h2]
        have hne : ¬(1 + d = 1 + j) := by omega
        simp [hne]

theorem chain_children (d j : Nat) :
    all_children_map (chain_edges d) (1 + j) =
      if j < d then [2 + j] else if j = d then [0] else [] := by
  unfold all_children_map chain_edges
  rw [List.filter_append, List.map_append, chain_prefix_filter]
  by_cases h : j < d
  · rw [if_pos h, if_pos h]
    have hne : ¬((1 : Nat) + d = 1 + j) := by omega
    simp [hne]
  · rw [if_neg h, if_neg h]
    by_cases h2 : j = d
    · subst h2
      simp
    · rw [if_neg h2]
      have hne : ¬((1 : Nat) + d = 1 + j) := by omega
      simp [hne]

theorem chain_collect_fail (d : Nat) :
    ∀ fuel j, j ≤ d → fuel + j < d + 2 →
      collect_points 1 (chain_edges d) fuel (1 + j) = none := by
  intro fuel
  induction fuel with
  | zero => intro j _ _; rfl
  | succ fuel ih =>
    intro j hj hlt
    have hnotpt : ¬(1 + j < 1) := by omega
    rw [collect_points, if_neg hnotpt, chain_children]
    by_cases h : j < d
    · rw [if_pos h]
      have hrec : collect_points 1 (chain_edges d) fuel (1 + (j + 1)) = none :=
        ih (j + 1) (by omega) (by omega)
      have h21 : (2 : Nat) + j = 1 + (j + 1) := by omega
      simp only [mapOpt, h21, hrec]
    · have hj' : j = d := by omega
      subst hj'
      rw [if_neg h, if_pos rfl]
      have hfuel : fuel = 0 := by omega
      subst hfuel
      simp only [mapOpt]
      rfl

theorem chain_collect_succeed (d : Nat) :
    ∀ fuel j, j ≤ d → d + 2 ≤ fuel + j →
      collect_points 1 (chain_edges d) fuel (1 + j) = some [0] := by
  intro fuel
  induction fuel with
  | zero => intro j hj hge; omega
  | succ fuel ih =>
    intro j hj hge
    have hnotpt : ¬(1 + j < 1) := by omega
    rw [collect_points, if_neg hnotpt, chain_children]
    by_cases h : j < d
    · rw [if_pos h]
      have hrec : collect_points 1 (chain_edges d) fuel (1 + (j + 1)) = some [0] :=
        ih (j + 1) (by omega) (by omega)
      have h21 : (2 : Nat) + j = 1 + (j + 1) := by omega
      simp only [mapOpt, h21, hrec]
      rfl
    · have hj' : j = d := by omega
      subst hj'
      rw [if_neg h, if_pos rfl]
      cases fuel with
      | zero => omega
      | succ fuel =>
        have hpt : collect_points 1 (chain_edges j) (fuel + 1) 0 = some [0] := by
          rw [collect_points, if_pos (by omega)]
        simp only [mapOpt, hpt]
        rfl

/-- Claim C9: on the depth-`d` parent chain, `collect_points` needs recursion depth
`d + 2`: with call-stack budget `d + 1` it aborts (modelling the
`RecursionError` of the source's language-native recursion), and with budget
`d + 2` it returns the point set.  The required stack depth therefore grows
without bound in the tree depth, so the implementation is NOT an explicit
work-stack iterative traversal tolerating arbitrarily deep trees. -/
theorem collect_points_depth_bounded (d : Nat) :
    collect_points 1 (chain_edges d) (d + 1) 1 = none ∧
      collect_points 1 (chain_edges d) (d + 2) 1 = some [0] :=
  ⟨chain_collect_fail d (d + 1) 0 (Nat.zero_le d) (by omega),
   chain_collect_succeed d (d + 2) 0 (Nat.zero_le d) (by omega)⟩

/-! ## C3: the union of the roots' reachable final clusters -/

theorem lookup_nat_mem {α : Type _} :
    ∀ {l : List (Nat × α)} {k : Nat} {v : α}, lookup_nat l k = some v → (k, v) ∈ l := by
  intro l
  induction l with
  | nil => intro k v h; cases h
  | cons e rest ih =>
    intro k v h
    rw [lookup_nat] at h
    split at h
    · rename_i hk
      injection h with h
      subst h
      subst hk
      exact List.mem_cons_self _ _
    · exact List.mem_cons_of_mem _ (ih h)

theorem add_cluster_node_nodup {N : Nat} {acc : List Nat} (h : acc.Nodup) (x : Nat) :
    (add_cluster_node N acc x).Nodup := by
  unfold add_cluster_node
  split
  · rename_i hx
    refine List.Nodup.append h (List.nodup_singleton x) ?_
    intro a ha hax
    rw [List.mem_singleton] at hax
    subst hax
    exact hx.2 ha
  · exact h

theorem all_cluster_nodes_nodup (N : Nat) (edges : List TreeEdge) :
    (all_cluster_nodes N edges).Nodup := by
  unfold all_cluster_nodes
  have main : ∀ (es : List TreeEdge) (acc : List Nat), acc.Nodup →
      (es.foldl (fun acc e => add_cluster_node N (add_cluster_node N acc e.parent) e.child)
        acc).Nodup := by
    intro es
    induction es with
    | nil => intro acc h; exact h
    | cons e es ih =>
      intro acc h
      rw [List.foldl_cons]
      exact ih _ (add_cluster_node_nodup (add_cluster_node_nodup h _) _)
  exact main edges [] List.nodup_nil

theorem roots_selected_subset (N : Nat) (edges : List TreeEdge) :
    ∀ r ∈ roots_selected N edges, r ∈ all_cluster_nodes N edges := by
  intro r hr
  unfold roots_selected at hr
  split at hr
  · cases hacn : all_cluster_nodes N edges with
    | nil =>
      rw [hacn] at hr
      cases hr
    | cons x xs =>
      rw [hacn] at hr
      simp only [max_by_lambda] at hr
      rw [List.mem_singleton] at hr
      subst hr
      exact foldl_pick_max_mem edges xs x
  · rw [root_candidates] at hr
    exact (List.mem_filter.mp hr).1

theorem mem_node_final_clusters {labels : List Int} {pts : List Nat} {x : Int} :
    x ∈ node_final_clusters labels pts ↔
      ∃ p ∈ pts, p < labels.length ∧ labels.getD p (-1) ≠ -1 ∧ labels.getD p (-1) = x := by
  unfold node_final_clusters
  rw [show ∀ l : List Int, l.foldl set_insert [] = set_union [] l from fun l => rfl,
    mem_set_union]
  simp only [List.not_mem_nil, false_or, List.mem_map, List.mem_filter, decide_eq_true_eq]
  constructor
  · rintro ⟨p, ⟨hp, hcond⟩, hx⟩
    exact ⟨p, hp, hcond.1, hcond.2, hx⟩
  · rintro ⟨p, hp, h1, h2, hx⟩
    exact ⟨p, ⟨hp, h1, h2⟩, hx⟩

/-- Shape of every entry of the mapping produced by the
`tree_to_final_clusters` loop. -/
theorem t2fc_loop_entries (N fuel : Nat) (edges : List TreeEdge) (labels : List Int) :
    ∀ (acn : List Nat) (mapping : List (Nat × List Int)),
      tree_to_final_clusters_loop N fuel edges labels acn = some mapping →
      ∀ entry ∈ mapping, entry.1 ∈ acn ∧
        ∃ pts, collect_points N edges fuel entry.1 = some pts ∧
          entry.2 = (node_final_clusters labels pts).insertionSort (· ≤ ·) := by
  intro acn
  induction acn with
  | nil =>
    intro mapping h entry hentry
    injection h with h
    subst h
    cases hentry
  | cons c cs ih =>
    intro mapping h entry hentry
    simp only [tree_to_final_clusters_loop] at h
    cases hcol : collect_points N edges fuel c with
    | none => rw [hcol, Option.none_bind] at h; cases h
    | some pts =>
      rw [hcol, Option.some_bind] at h
      cases hrest : tree_to_final_clusters_loop N fuel edges labels cs with
      | none => rw [hrest, Option.none_bind] at h; cases h
      | some rest =>
        rw [hrest, Option.some_bind] at h
        by_cases h1 : pts = []
        · rw [if_pos h1] at h
          injection h with h
          subst h
          obtain ⟨ha, hb⟩ := ih rest hrest entry hentry
          exact ⟨List.mem_cons_of_mem _ ha, hb⟩
        · rw [if_neg h1] at h
          by_cases h2 : node_final_clusters labels pts = []
          · rw [if_pos h2] at h
            injection h with h
            subst h
            obtain ⟨ha, hb⟩ := ih rest hrest entry hentry
            exact ⟨List.mem_cons_of_mem _ ha, hb⟩
          · rw [if_neg h2] at h
            injection h with h
            subst h
            rcases List.mem_cons.mp hentry with hentry | hentry
            · subst hentry
              exact ⟨List.mem_cons_self _ _, pts, hcol, rfl⟩
            · obtain ⟨ha, hb⟩ := ih rest hrest entry hentry
              exact ⟨List.mem_cons_of_mem _ ha, hb⟩

/-- Lookup in the mapping produced by the `tree_to_final_clusters` loop, for
a node of the (duplicate-free) traversal list whose point collection
succeeded with a non-empty point set and non-empty label set. -/
theorem t2fc_loop_lookup (N fuel : Nat) (edges : List TreeEdge) (labels : List Int) :
    ∀ (acn : List Nat) (mapping : List (Nat × List Int)) (c : Nat), acn.Nodup →
      tree_to_final_clusters_loop N fuel edges labels acn = some mapping →
      c ∈ acn → ∀ pts, collect_points N edges fuel c = some pts →
      pts ≠ [] → node_final_clusters labels pts ≠ [] →
      lookup_nat mapping c = some ((node_final_clusters labels pts).insertionSort (· ≤ ·)) := by
  intro acn
  induction acn with
  | nil =>
    intro mapping c _ _ hc
    cases hc
  | cons a as ih =>
    intro mapping c hnd h hc pts hcol hpts hfc
    simp only [tree_to_final_clusters_loop] at h
    cases hcola : collect_points N edges fuel a with
    | none => rw [hcola, Option.none_bind] at h; cases h
    | some ptsa =>
      rw [hcola, Option.some_bind] at h
      cases hrest : tree_to_final_clusters_loop N fuel edges labels as with
      | none => rw [hrest, Option.none_bind] at h; cases h
      | some rest =>
        rw [hrest, Option.some_bind] at h
        rcases List.mem_cons.mp hc with hca | hcas
        · subst hca
          have hpe : ptsa = pts := by
            rw [hcola] at hcol
            exact Option.some_inj.mp hcol
          subst hpe
          rw [if_neg hpts, if_neg hfc] at h
          injection h with h
          subst h
          simp [lookup_nat]
        · have hane : c ≠ a := by
            intro hce
            subst hce
            exact (List.nodup_cons.mp hnd).1 hcas
          by_cases h1 : ptsa = []
          · rw [if_pos h1] at h
            injection h with h
            subst h
            exact ih rest c (List.nodup_cons.mp hnd).2 hrest hcas pts hcol hpts hfc
          · rw [if_neg h1] at h
            by_cases h2 : node_final_clusters labels ptsa = []
            · rw [if_pos h2] at h
              injection h with h
              subst h
              exact ih rest c (List.nodup_cons.mp hnd).2 hrest hcas pts hcol hpts hfc
            · rw [if_neg h2] at h
              injection h with h
              subst h
              simp only [lookup_nat, if_neg hane]
              exact ih rest c (List.nodup_cons.mp hnd).2 hrest hcas pts hcol hpts hfc

/-- The `cluster_id` and `final_clusters` fields of a successfully built
Output Tree node. -/
theorem build_node_final_clusters {edges : List TreeEdge} {mapping : List (Nat × List Int)}
    {fuel cid : Nat} {n : OutputNode} (h : build_node edges mapping fuel cid = some n) :
    n.final_clusters = ((lookup_nat mapping cid).getD []).insertionSort (· ≤ ·) := by
  cases fuel with
  | zero => cases h
  | succ fuel =>
    simp only [build_node] at h
    cases hm : mapOpt (fun c => build_node edges mapping fuel c) (children_map edges cid) with
    | none => rw [hm] at h; cases h
    | some childNodes =>
      rw [hm] at h
      injection h with h
      subst h
      rfl

theorem mem_roots_final_union {r : TreeResult} {x : Int} :
    x ∈ roots_final_union r ↔ ∃ n ∈ r.tree, x ∈ n.final_clusters := by
  unfold roots_final_union
  have main : ∀ (l : List OutputNode) (s : Finset Int),
      x ∈ l.foldl (fun s n => s ∪ n.final_clusters.toFinset) s ↔
        x ∈ s ∨ ∃ n ∈ l, x ∈ n.final_clusters := by
    intro l
    induction l with
    | nil => intro s; simp
    | cons n ns ih =>
      intro s
      rw [List.foldl_cons, ih]
      simp only [Finset.mem_union, List.mem_toFinset, List.mem_cons]
      constructor
      · rintro ((hs | hn) | ⟨m, hm, hx⟩)
        · exact Or.inl hs
        · exact Or.inr ⟨n, Or.inl rfl, hn⟩
        · exact Or.inr ⟨m, Or.inr hm, hx⟩
      · rintro (hs | ⟨m, hm | hm, hx⟩)
        · exact Or.inl (Or.inl hs)
        · subst hm
          exact Or.inl (Or.inr hx)
        · exact Or.inr ⟨m, hm, hx⟩
  rw [main]
  simp

theorem mem_labels_present {labels : List Int} {x : Int} :
    x ∈ labels_present labels ↔ x ∈ labels ∧ x ≠ -1 := by
  unfold labels_present
  rw [List.mem_toFinset, List.mem_filter]
  simp

/-- Claim C3 counterexample: with `w3Edges` and labels `[0, 1]`, point `1` (label
`1`) is attached to no edge, so the union over the roots of the reachable
final-cluster sets is `{0}` and misses the non-noise label `1` present in
the label array. -/
theorem roots_final_union_ne_labels_present :
    roots_final_union (extract_tree_structure 2 5 w3Edges w3Labels) ≠
      labels_present w3Labels := by decide

/-- Claim C3 amended: on successful extraction, the union over the output
tree's roots of the roots' reachable final-cluster sets EQUALS the set of
non-noise labels of the points reachable (via `collect_points`) from the
selected roots: every label in the union is the non-noise label of some
root-reachable point (hence the union is a subset of the non-noise labels
present in the label array), and conversely, when at least one cluster-merge
edge exists, the label of every non-noise root-reachable point is in the
union.  Labels of points attached under no selected root are omitted, so
equality with the full label set can fail. -/
theorem roots_final_union_characterisation (N fuel : Nat) (edges : List TreeEdge)
    (labels : List Int) (r : TreeResult)
    (hinner : extract_inner N fuel edges labels = some r) :
    (roots_final_union r ⊆ labels_present labels)
    ∧ (∀ x ∈ roots_final_union r, ∃ root ∈ roots_selected N edges, ∃ pts,
        collect_points N edges fuel root = some pts ∧
          ∃ i ∈ pts, i < labels.length ∧ labels.getD i (-1) ≠ -1 ∧
            labels.getD i (-1) = x)
    ∧ (∀ root ∈ roots_selected N edges, ∀ pts, collect_points N edges fuel root = some pts →
        ∀ i ∈ pts, i < labels.length → labels.getD i (-1) ≠ -1 → cluster_tree edges ≠ [] →
          labels.getD i (-1) ∈ roots_final_union r) := by
  unfold extract_inner at hinner
  by_cases hct : cluster_tree edges = []
  · rw [if_pos hct] at hinner
    injection hinner with h
    subst h
    refine ⟨?_, ?_, ?_⟩
    · intro x hx
      rw [mem_roots_final_union] at hx
      obtain ⟨n, hn, _⟩ := hx
      cases hn
    · intro x hx
      rw [mem_roots_final_union] at hx
      obtain ⟨n, hn, _⟩ := hx
      cases hn
    · intro root _ pts _ i _ _ _ hct2
      exact absurd hct hct2
  · rw [if_neg hct] at hinner
    split at hinner
    · cases hinner
    · rename_i mapping hmap
      unfold tree_to_final_clusters at hmap
      split at hinner
      · cases hinner
      · rename_i tree htree
        injection hinner with h
        have h2 : ∀ x ∈ roots_final_union r, ∃ root ∈ roots_selected N edges, ∃ pts,
            collect_points N edges fuel root = some pts ∧
              ∃ i ∈ pts, i < labels.length ∧ labels.getD i (-1) ≠ -1 ∧
                labels.getD i (-1) = x := by
          intro x hx
          rw [← h, mem_roots_final_union] at hx
          obtain ⟨n, hn, hxn⟩ := hx
          obtain ⟨root, hroot, hb⟩ := mapOpt_mem htree n hn
          rw [build_node_final_clusters hb, List.mem_insertionSort] at hxn
          cases hlk : lookup_nat mapping root with
          | none =>
            rw [hlk] at hxn
            cases hxn
          | some v =>
            rw [hlk, Option.getD_some] at hxn
            obtain ⟨_, pts, hcol, hshape⟩ :=
              t2fc_loop_entries N fuel edges labels _ mapping hmap (root, v)
                (lookup_nat_mem hlk)
            simp only at hshape hcol
            rw [hshape, List.mem_insertionSort, mem_node_final_clusters] at hxn
            obtain ⟨p, hp, hlen, hnoise, hxv⟩ := hxn
            exact ⟨root, hroot, pts, hcol, p, hp, hlen, hnoise, hxv⟩
        refine ⟨?_, h2, ?_⟩
        · intro x hx
          obtain ⟨root, _, pts, _, i, _, hlen, hnoise, hxv⟩ := h2 x hx
          rw [mem_labels_present, ← hxv]
          refine ⟨?_, hnoise⟩
          rw [List.getD_eq_getElem labels (-1) hlen]
          exact List.getElem_mem hlen
        · intro root hroot pts hcol i hi hilen hinoise _
          have hfc : labels.getD i (-1) ∈ node_final_clusters labels pts :=
            mem_node_final_clusters.mpr ⟨i, hi, hilen, hinoise, rfl⟩
          have hlk := t2fc_loop_lookup N fuel edges labels _ mapping root
            (all_cluster_nodes_nodup N edges) hmap
            (roots_selected_subset N edges root hroot) pts hcol
            (List.ne_nil_of_mem hi) (List.ne_nil_of_mem hfc)
          obtain ⟨n, hn, hb⟩ := mapOpt_mem_of_mem htree root hroot
          rw [← h, mem_roots_final_union]
          refine ⟨n, hn, ?_⟩
          rw [build_node_final_clusters hb, hlk, List.mem_insertionSort]
          simpa [List.mem_insertionSort] using hfc

theorem roots_final_union_characterisation_witness :
    (roots_final_union (extract_tree_structure 2 5 w1Edges w1Labels) ⊆
      labels_present w1Labels)
    ∧ (0 : Int) ∈ roots_final_union (extract_tree_structure 2 5 w1Edges w1Labels) :=
  ⟨(roots_final_union_characterisation 2 5 w1Edges w1Labels _ rfl).1,
   (roots_final_union_characterisation 2 5 w1Edges w1Labels _ rfl).2.2 3 (by decide)
     [0, 1] rfl 0 (by decide) (by decide) (by decide) (by decide)⟩

/-! ## C5, C6, C10: chunk-first grouping -/

theorem classify_step_eval (acc : List (Int × List String) × List String × List String)
    (x : String × DocAssign) :
    classify_step acc x =
      if x.2.cluster_id = -1 then
        if x.2.primary_cluster = -1 then (acc.1, acc.2.1 ++ [x.1], acc.2.2)
        else (acc.1, acc.2.1, acc.2.2 ++ [x.1])
      else (add_to_cluster acc.1 x.2.cluster_id x.1, acc.2.1, acc.2.2) := rfl

theorem fold_noise_eq (l : List (String × DocAssign)) :
    ∀ (cs : List (Int × List String)) (ns mc : List String),
      (l.foldl classify_step (cs, ns, mc)).2.1 =
        ns ++ (l.filter (fun x => x.2.cluster_id = -1 ∧ x.2.primary_cluster = -1)).map
          (fun x => x.1) := by
  induction l with
  | nil => intro cs ns mc; simp
  | cons x xs ih =>
    intro cs ns mc
    rw [List.foldl_cons, classify_step_eval]
    by_cases h1 : x.2.cluster_id = -1
    · rw [if_pos h1]
      by_cases h2 : x.2.primary_cluster = -1
      · rw [if_pos h2]
        rw [ih]
        simp [List.filter_cons, h1, h2]
      · rw [if_neg h2]
        rw [ih]
        simp [List.filter_cons, h1, h2]
    · rw [if_neg h1]
      rw [ih]
      simp [List.filter_cons, h1]

theorem fold_multi_eq (l : List (String × DocAssign)) :
    ∀ (cs : List (Int × List String)) (ns mc : List String),
      (l.foldl classify_step (cs, ns, mc)).2.2 =
        mc ++ (l.filter (fun x => x.2.cluster_id = -1 ∧ x.2.primary_cluster ≠ -1)).map
          (fun x => x.1) := by
  induction l with
  | nil => intro cs ns mc; simp
  | cons x xs ih =>
    intro cs ns mc
    rw [List.foldl_cons, classify_step_eval]
    by_cases h1 : x.2.cluster_id = -1
    · rw [if_pos h1]
      by_cases h2 : x.2.primary_cluster = -1
      · rw [if_pos h2]
        rw [ih]
        simp [List.filter_cons, h1, h2]
      · rw [if_neg h2]
        rw [ih]
        simp [List.filter_cons, h1, h2]
    · rw [if_neg h1]
      rw [ih]
      simp [List.filter_cons, h1]

theorem add_to_cluster_flatMap_perm (cs : List (Int × List String)) (cid : Int) (d : String) :
    List.Perm ((add_to_cluster cs cid d).flatMap (fun p => p.2))
      (cs.flatMap (fun p => p.2) ++ [d]) := by
  induction cs with
  | nil => simp [add_to_cluster]
  | cons p ps ih =>
    rw [add_to_cluster]
    by_cases h : p.1 = cid
    · rw [if_pos h]
      simp only [List.flatMap_cons]
      rw [List.append_assoc, List.append_assoc]
      exact List.Perm.append_left p.2 List.perm_append_comm
    · rw [if_neg h]
      simp only [List.flatMap_cons]
      rw [List.append_assoc]
      exact List.Perm.append_left p.2 ih

theorem fold_clusters_perm (l : List (String × DocAssign)) :
    ∀ (cs : List (Int × List String)) (ns mc : List String),
      List.Perm ((l.foldl classify_step (cs, ns, mc)).1.flatMap (fun p => p.2))
        (cs.flatMap (fun p => p.2) ++
          (l.filter (fun x => x.2.cluster_id ≠ -1)).map (fun x => x.1)) := by
  induction l with
  | nil => intro cs ns mc; simp
  | cons x xs ih =>
    intro cs ns mc
    rw [List.foldl_cons, classify_step_eval]
    by_cases h1 : x.2.cluster_id = -1
    · rw [if_pos h1]
      by_cases h2 : x.2.primary_cluster = -1
      · rw [if_pos h2]
        simpa [List.filter_cons, h1] using ih cs (ns ++ [x.1]) mc
      · rw [if_neg h2]
        simpa [List.filter_cons, h1] using ih cs ns (mc ++ [x.1])
    · rw [if_neg h1]
      have hstep := ih (add_to_cluster cs x.2.cluster_id x.1) ns mc
      refine hstep.trans ?_
      have h3 := (add_to_cluster_flatMap_perm cs x.2.cluster_id x.1).append_right
        ((xs.filter (fun x => x.2.cluster_id ≠ -1)).map (fun x => x.1))
      refine h3.trans ?_
      rw [List.append_assoc]
      simp [List.filter_cons, h1]

theorem length_flatMap_clusters (cs : List (Int × List String)) :
    (cs.flatMap (fun p => p.2)).length = cluster_sizes_sum cs := by
  induction cs with
  | nil => rfl
  | cons p ps ih => simp [List.flatMap_cons, cluster_sizes_sum, ih]

theorem three_way_partition {α β : Type _} (f : α → β) (p q r : α → Bool)
    (hcov : ∀ x, (p x = true ∧ q x = false ∧ r x = false) ∨
      (p x = false ∧ q x = true ∧ r x = false) ∨
      (p x = false ∧ q x = false ∧ r x = true)) :
    ∀ l : List α,
      List.Perm ((l.filter p).map f ++ ((l.filter q).map f ++ (l.filter r).map f))
        (l.map f) := by
  intro l
  induction l with
  | nil => simp
  | cons x xs ih =>
    rcases hcov x with ⟨h1, h2, h3⟩ | ⟨h1, h2, h3⟩ | ⟨h1, h2, h3⟩
    · simp only [List.filter_cons, h1, h2, h3, List.map_cons, if_true, if_false,
        List.cons_append]
      exact ih.cons (f x)
    · simp only [List.filter_cons, h1, h2, h3, List.map_cons, if_true, if_false,
        List.cons_append]
      exact List.perm_middle.trans (ih.cons (f x))
    · simp only [List.filter_cons, h1, h2, h3, List.map_cons, if_true, if_false,
        List.cons_append]
      exact (List.Perm.append_left _ List.perm_middle).trans
        (List.perm_middle.trans (ih.cons (f x)))

/-- Claim C10: the chunk-first `format_results` places every input document in
exactly one of the three output groups (the noise list, the multi-cluster
list, or some numbered cluster): the concatenation of the groups is a
permutation of the input document ids, and `totalDocuments` equals
`noiseCount + multiClusterCount +` the sum of the per-cluster sizes. -/
theorem format_results_partition (doc_clusters : List (String × DocAssign)) :
    List.Perm
      ((format_results doc_clusters).noise ++ ((format_results doc_clusters).multiCluster ++
        (format_results doc_clusters).clusters.flatMap (fun p => p.2)))
      (doc_clusters.map (fun x => x.1))
    ∧ (format_results doc_clusters).totalDocuments =
        (format_results doc_clusters).noiseCount +
          (format_results doc_clusters).multiClusterCount +
          cluster_sizes_sum (format_results doc_clusters).clusters := by
  have hnoise := fold_noise_eq doc_clusters [] [] []
  have hmulti := fold_multi_eq doc_clusters [] [] []
  have hclusters := fold_clusters_perm doc_clusters [] [] []
  have hperm : List.Perm
      ((format_results doc_clusters).noise ++ ((format_results doc_clusters).multiCluster ++
        (format_results doc_clusters).clusters.flatMap (fun p => p.2)))
      (doc_clusters.map (fun x => x.1)) := by
    unfold format_results
    simp only
    rw [hnoise, hmulti]
    simp only [List.nil_append]
    refine (List.Perm.append_left _ (List.Perm.append_left _ ?_)).trans
      (three_way_partition (fun x : String × DocAssign => x.1)
        (fun x => decide (x.2.cluster_id = -1 ∧ x.2.primary_cluster = -1))
        (fun x => decide (x.2.cluster_id = -1 ∧ x.2.primary_cluster ≠ -1))
        (fun x => decide (x.2.cluster_id ≠ -1))
        (by
          intro x
          by_cases h1 : x.2.cluster_id = -1 <;> by_cases h2 : x.2.primary_cluster = -1 <;>
            simp [h1, h2])
        doc_clusters)
    simpa using hclusters
  refine ⟨hperm, ?_⟩
  have hlen := hperm.length_eq
  rw [List.length_append, List.length_append, List.length_map,
    length_flatMap_clusters] at hlen
  unfold format_results at hlen ⊢
  simp only at hlen ⊢
  omega

/-- Evaluation of `assign_document` when the chunk list has a primary
cluster. -/
theorem assign_document_eval {threshold : ℚ} {chunks : List Int} {pc : Int × Nat}
    (hmax : max_by_count (cluster_counts chunks) = some pc) :
    assign_document threshold chunks =
      if threshold ≤ (pc.2 : ℚ) / (chunks.length : ℚ) then
        { cluster_id := pc.1, chunk_count := chunks.length, primary_cluster := pc.1,
          primary_cluster_frac := (pc.2 : ℚ) / (chunks.length : ℚ) }
      else
        { cluster_id := -1, chunk_count := chunks.length, primary_cluster := pc.1,
          primary_cluster_frac := (pc.2 : ℚ) / (chunks.length : ℚ) } := by
  have hne : cluster_counts chunks ≠ [] := by
    intro hh
    rw [hh] at hmax
    cases hmax
  unfold assign_document
  rw [if_neg hne]
  simp only [hmax, Option.getD_some]
  by_cases hc : threshold ≤ (pc.2 : ℚ) / (chunks.length : ℚ)
  · rw [if_pos hc, if_pos hc]
  · rw [if_neg hc, if_neg hc]

theorem assign_primary_neg_one {threshold : ℚ} {chunks : List Int}
    (h : (assign_document threshold chunks).primary_cluster = -1) :
    (assign_document threshold chunks).cluster_id = -1 := by
  unfold assign_document at h ⊢
  by_cases hc : cluster_counts chunks = []
  · rw [if_pos hc]
  · rw [if_neg hc] at h ⊢
    simp only at h ⊢
    split
    · exact h
    · rfl

theorem assign_cluster_id_neg_one_iff (threshold : ℚ) (chunks : List Int) :
    (assign_document threshold chunks).cluster_id = -1 ↔
      (assign_document threshold chunks).primary_cluster = -1 ∨
        (assign_document threshold chunks).primary_cluster_frac < threshold := by
  unfold assign_document
  by_cases hc : cluster_counts chunks = []
  · rw [if_pos hc]
    simp
  · rw [if_neg hc]
    simp only
    split
    · rename_i ht
      constructor
      · intro h
        exact Or.inl h
      · rintro (h | h)
        · exact h
        · exact absurd ht (not_le.mpr h)
    · rename_i ht
      simp [not_le.mp ht]

theorem nodup_entry_eq {docs : List (String × List Int)}
    (hnd : (docs.map (fun x => x.1)).Nodup) {d : String} {chunks : List Int}
    (hmem : (d, chunks) ∈ docs) :
    ∀ y ∈ docs, y.1 = d → y = (d, chunks) := by
  intro y hy hyd
  exact List.inj_on_of_nodup_map hnd hy hmem (by simpa using hyd)

/-- Claim C5 counterexample: a document whose chunks are `[-1, -1, 2]` (majority
label `-1`, ratio `2/3 ≥ 1/2`) is placed in the NOISE group of the output,
although not all of its chunks are labeled `-1` — refuting "noise iff all
chunks are `-1`". -/
theorem noise_group_not_all_noise_cex :
    "a" ∈ (chunk_pipeline (1/2) [("a", [-1, -1, 2])]).noise ∧
      ¬(∀ c ∈ ([-1, -1, 2] : List Int), c = -1) ∧
      ¬("a" ∈ (chunk_pipeline (1/2) [("a", [-1, -1, 2])]).noise ↔
        ∀ c ∈ ([-1, -1, 2] : List Int), c = -1) := by
  have hmem : "a" ∈ (chunk_pipeline (1/2) [("a", [-1, -1, 2])]).noise := by
    have ha := @assign_document_eval (1/2) [-1, -1, 2] (-1, 2) rfl
    rw [if_pos (by norm_num)] at ha
    have hnoise : (chunk_pipeline (1/2) [("a", [-1, -1, 2])]).noise =
        (([("a", [-1, -1, 2])].map (fun y => (y.1, assign_document (1/2) y.2))).filter
          (fun x => x.2.cluster_id = -1 ∧ x.2.primary_cluster = -1)).map (fun x => x.1) := by
      unfold chunk_pipeline format_results
      simp only
      rw [fold_noise_eq]
      simp
    rw [hnoise]
    simp only [List.map_cons, List.map_nil]
    rw [ha]
    simp
  have hnot : ¬(∀ c ∈ ([-1, -1, 2] : List Int), c = -1) := by
    intro h
    have h2 := h 2 (by decide)
    cases h2
  exact ⟨hmem, hnot, fun hiff => hnot (hiff.mp hmem)⟩

/-- Claim C5 amended: in the chunk-first result assembly a document is placed in
the noise group iff its PRIMARY (most common, first-seen wins ties) chunk
label is `-1` — not iff all chunks are `-1` — and in the multi-cluster group
iff its primary label is a real cluster whose chunk fraction is below the
majority threshold; the two groups are mutually exclusive. -/
theorem noise_vs_multicluster (threshold : ℚ) (docs : List (String × List Int))
    (d : String) (chunks : List Int) (hmem : (d, chunks) ∈ docs)
    (hnd : (docs.map (fun x => x.1)).Nodup) :
    (d ∈ (chunk_pipeline threshold docs).noise ↔
      (assign_document threshold chunks).primary_cluster = -1)
    ∧ (d ∈ (chunk_pipeline threshold docs).multiCluster ↔
        (assign_document threshold chunks).primary_cluster ≠ -1 ∧
          (assign_document threshold chunks).primary_cluster_frac < threshold)
    ∧ ¬(d ∈ (chunk_pipeline threshold docs).noise ∧
        d ∈ (chunk_pipeline threshold docs).multiCluster) := by
  have hnoise : (chunk_pipeline threshold docs).noise =
      ((docs.map (fun y => (y.1, assign_document threshold y.2))).filter
        (fun x => x.2.cluster_id = -1 ∧ x.2.primary_cluster = -1)).map (fun x => x.1) := by
    unfold chunk_pipeline format_results
    simp only
    rw [fold_noise_eq]
    simp
  have hmulti : (chunk_pipeline threshold docs).multiCluster =
      ((docs.map (fun y => (y.1, assign_document threshold y.2))).filter
        (fun x => x.2.cluster_id = -1 ∧ x.2.primary_cluster ≠ -1)).map (fun x => x.1) := by
    unfold chunk_pipeline format_results
    simp only
    rw [fold_multi_eq]
    simp
  have hfwd : ∀ (P : (String × DocAssign) → Prop) [DecidablePred P],
      d ∈ ((docs.map (fun y => (y.1, assign_document threshold y.2))).filter
        (fun x => P x)).map (fun x => x.1) ↔ P (d, assign_document threshold chunks) := by
    intro P _
    constructor
    · intro hd
      obtain ⟨x, hx, hxd⟩ := List.mem_map.mp hd
      have hxf := List.mem_filter.mp hx
      obtain ⟨y, hy, hxy⟩ := List.mem_map.mp hxf.1
      have hyd : y.1 = d := by
        rw [← hxy] at hxd
        exact hxd
      have hye := nodup_entry_eq hnd hmem y hy hyd
      rw [hye] at hxy
      rw [← hxy] at hxf
      simpa using hxf.2
    · intro hP
      refine List.mem_map.mpr ⟨(d, assign_document threshold chunks), ?_, rfl⟩
      refine List.mem_filter.mpr ⟨?_, by simpa using hP⟩
      exact List.mem_map.mpr ⟨(d, chunks), hmem, rfl⟩
  constructor
  · rw [hnoise, hfwd]
    simp only
    constructor
    · intro h
      exact h.2
    · intro h
      exact ⟨assign_primary_neg_one h, h⟩
  constructor
  · rw [hmulti, hfwd]
    simp only
    rw [assign_cluster_id_neg_one_iff]
    constructor
    · rintro ⟨h1 | h1, h2⟩
      · exact absurd h1 h2
      · exact ⟨h2, h1⟩
    · rintro ⟨h1, h2⟩
      exact ⟨Or.inr h2, h1⟩
  · rw [hnoise, hmulti, hfwd, hfwd]
    simp only
    rintro ⟨⟨_, h1⟩, ⟨_, h2⟩⟩
    exact h2 h1

theorem noise_vs_multicluster_witness :
    ("a" ∈ (chunk_pipeline (1/2) [("a", [2, 5, 7])]).noise ↔
      (assign_document (1/2) [2, 5, 7]).primary_cluster = -1)
    ∧ ("a" ∈ (chunk_pipeline (1/2) [("a", [2, 5, 7])]).multiCluster ↔
        (assign_document (1/2) [2, 5, 7]).primary_cluster ≠ -1 ∧
          (assign_document (1/2) [2, 5, 7]).primary_cluster_frac < 1/2)
    ∧ ¬("a" ∈ (chunk_pipeline (1/2) [("a", [2, 5, 7])]).noise ∧
        "a" ∈ (chunk_pipeline (1/2) [("a", [2, 5, 7])]).multiCluster) :=
  noise_vs_multicluster (1/2) [("a", [2, 5, 7])] "a" [2, 5, 7] (by decide) (by decide)

/-- Claim C6: the majority-threshold comparison is boundary-inclusive: whenever the
primary cluster's chunk fraction is at least the threshold, the document is
assigned to the primary cluster; in particular chunks `[2,2,5]` at threshold
`1/2` give cluster `2`, chunks `[2,5]` give cluster `2` (boundary), and
chunks `[2,5,7]` give no assignment (`-1`) with primary cluster `2`
(multi-cluster, not noise). -/
theorem majority_threshold_boundary (threshold : ℚ) (chunks : List Int)
    (pc : Int × Nat) (hmax : max_by_count (cluster_counts chunks) = some pc)
    (hge : threshold ≤ (pc.2 : ℚ) / (chunks.length : ℚ)) :
    ((assign_document threshold chunks).cluster_id = pc.1 ∧
      (assign_document threshold chunks).primary_cluster = pc.1)
    ∧ (assign_document (1/2) [2, 2, 5]).cluster_id = 2
    ∧ (assign_document (1/2) [2, 5]).cluster_id = 2
    ∧ (assign_document (1/2) [2, 5, 7]).cluster_id = -1
    ∧ (assign_document (1/2) [2, 5, 7]).primary_cluster = 2 := by
  have h225 := @assign_document_eval (1/2) [2, 2, 5] (2, 2) rfl
  rw [if_pos (by norm_num)] at h225
  have h25 := @assign_document_eval (1/2) [2, 5] (2, 1) rfl
  rw [if_pos (by norm_num)] at h25
  have h257 := @assign_document_eval (1/2) [2, 5, 7] (2, 1) rfl
  rw [if_neg (by norm_num)] at h257
  refine ⟨?_, by rw [h225], by rw [h25], by rw [h257], by rw [h257]⟩
  have hne : cluster_counts chunks ≠ [] := by
    intro hh
    rw [hh] at hmax
    cases hmax
  unfold assign_document
  rw [if_neg hne]
  simp only [hmax, Option.getD_some]
  rw [if_pos hge]
  exact ⟨rfl, trivial⟩

theorem majority_threshold_boundary_witness :
    ((assign_document (1/2) [2, 5]).cluster_id = (2 : Int) ∧
      (assign_document (1/2) [2, 5]).primary_cluster = (2 : Int))
    ∧ (assign_document (1/2) [2, 2, 5]).cluster_id = 2
    ∧ (assign_document (1/2) [2, 5]).cluster_id = 2
    ∧ (assign_document (1/2) [2, 5, 7]).cluster_id = -1
    ∧ (assign_document (1/2) [2, 5, 7]).primary_cluster = 2 :=
  majority_threshold_boundary (1/2) [2, 5] (2, 1) rfl (by norm_num)

/-! ## C7: embedding aggregation -/

theorem list_sum_sq_eq_zero {v : List ℝ} (h : (v.map (fun x => x ^ 2)).sum = 0) :
    ∀ x ∈ v, x = 0 := by
  induction v with
  | nil =>
    intro x hx
    cases hx
  | cons a as ih =>
    rw [List.map_cons, List.sum_cons] at h
    have h1 : 0 ≤ a ^ 2 := sq_nonneg a
    have h2 : 0 ≤ (as.map (fun x => x ^ 2)).sum := by
      apply List.sum_nonneg
      intro y hy
      obtain ⟨z, _, rfl⟩ := List.mem_map.mp hy
      exact sq_nonneg z
    intro x hx
    rcases List.mem_cons.mp hx with rfl | hx
    · have ha : x ^ 2 = 0 := by linarith
      exact pow_eq_zero_iff (by norm_num : (2 : Nat) ≠ 0) |>.mp ha
    · exact ih (by linarith) x hx

theorem mean_vector_length (vs : List (List ℝ)) (d : Nat) : (mean_vector vs d).length = d := by
  unfold mean_vector
  rw [List.length_map, List.length_range]

/-- Claim C7: aggregation computes the element-wise arithmetic mean of the chunk
vectors, preserves the dimensionality, divides by the Euclidean norm only
when it is strictly positive (a zero-norm mean is the zero vector and is
left unnormalised — no division by zero), and on `[1,0]`, `[0,1]` yields the
L2-normalisation of `[1/2, 1/2]`, i.e. `[√2/2, √2/2]`. -/
theorem aggregate_embeddings_spec (vectors : List (List ℝ)) (dim : Nat)
    (hne : vectors ≠ []) (hdim : ∀ v ∈ vectors, v.length = dim) :
    (aggregate_embeddings vectors dim).length = dim
    ∧ (∀ i, i < dim → (mean_vector vectors dim).getD i 0 =
        (vectors.map (fun v => v.getD i 0)).sum / (vectors.length : ℝ))
    ∧ (l2_norm (mean_vector vectors dim) = 0 →
        aggregate_embeddings vectors dim = mean_vector vectors dim ∧
          ∀ x ∈ mean_vector vectors dim, x = 0)
    ∧ (0 < l2_norm (mean_vector vectors dim) →
        aggregate_embeddings vectors dim =
          (mean_vector vectors dim).map (fun x => x / l2_norm (mean_vector vectors dim)))
    ∧ aggregate_embeddings [[1, 0], [0, 1]] 2 = [Real.sqrt 2 / 2, Real.sqrt 2 / 2] := by
  refine ⟨?_, ?_, ?_, ?_, ?_⟩
  · unfold aggregate_embeddings
    split
    · rw [List.length_map, mean_vector_length]
    · exact mean_vector_length vectors dim
  · intro i hi
    unfold mean_vector
    rw [List.getD_eq_getElem _ _ (by rw [List.length_map, List.length_range]; exact hi)]
    rw [List.getElem_map, List.getElem_range]
  · intro h0
    constructor
    · unfold aggregate_embeddings
      rw [if_neg (by rw [h0]; exact lt_irrefl 0)]
    · have hge : 0 ≤ ((mean_vector vectors dim).map (fun x => x ^ 2)).sum := by
        apply List.sum_nonneg
        intro y hy
        obtain ⟨z, _, rfl⟩ := List.mem_map.mp hy
        exact sq_nonneg z
      unfold l2_norm at h0
      have hle := Real.sqrt_eq_zero'.mp h0
      exact list_sum_sq_eq_zero (le_antisymm hle hge)
  · intro hp
    unfold aggregate_embeddings
    rw [if_pos hp]
  · have hmean : mean_vector [[1, 0], [0, 1]] 2 = [1/2, 1/2] := by
      unfold mean_vector
      rw [show List.range 2 = [0, 1] from rfl]
      simp only [List.map_cons, List.map_nil, List.sum_cons, List.sum_nil,
        List.getD_cons_zero, List.getD_cons_succ, List.length_cons, List.length_nil]
      norm_num
    have hnormval : l2_norm [(1 : ℝ)/2, 1/2] = Real.sqrt (1/2) := by
      unfold l2_norm
      simp only [List.map_cons, List.map_nil, List.sum_cons, List.sum_nil]
      rw [show ((1 : ℝ)/2) ^ 2 + (((1 : ℝ)/2) ^ 2 + 0) = 1/2 by norm_num]
    have hpos : 0 < Real.sqrt (1/2) := Real.sqrt_pos.mpr (by norm_num)
    have hsqrt : Real.sqrt (1/2) = (Real.sqrt 2)⁻¹ := by
      rw [show (1/2 : ℝ) = 2⁻¹ by norm_num, Real.sqrt_inv]
    have hdiv : (1 : ℝ)/2 / Real.sqrt (1/2) = Real.sqrt 2 / 2 := by
      rw [hsqrt, div_inv_eq_mul]
      ring
    unfold aggregate_embeddings
    rw [hmean, hnormval, if_pos hpos]
    simp only [List.map_cons, List.map_nil]
    rw [hdiv]

theorem aggregate_embeddings_spec_witness :
    (aggregate_embeddings [[1, 0], [0, 1]] 2).length = 2 ∧
      aggregate_embeddings [[1, 0], [0, 1]] 2 = [Real.sqrt 2 / 2, Real.sqrt 2 / 2] := by
  have hne : ([[1, 0], [0, 1]] : List (List ℝ)) ≠ [] := by simp
  have hdim : ∀ v ∈ ([[1, 0], [0, 1]] : List (List ℝ)), v.length = 2 := by
    intro v hv
    rcases List.mem_cons.mp hv with rfl | hv
    · rfl
    · rcases List.mem_cons.mp hv with rfl | hv
      · rfl
      · cases hv
  exact ⟨(aggregate_embeddings_spec [[1, 0], [0, 1]] 2 hne hdim).1,
    (aggregate_embeddings_spec [[1, 0], [0, 1]] 2 hne hdim).2.2.2.2⟩

end TldrawBerkdoc
